import Mathlib

set_option maxHeartbeats 1000000

/-
Verification of the batch compressor/decompressor `aio` (cmd/aio/main.go,
the batch variant with worker pool, test mode and per-file errors).

Go strings are embedded as `List Char`; the relevant pieces of Go's
`strings`, `path` and `path/filepath` packages are embedded directly;
stateful code (`processFile`, the dispatch loop in `main`) is embedded as
pure functions over an explicit `World` of filesystem/stream outcomes,
returning a result together with the trace of filesystem mutations.
-/

abbrev GoStr := List Char

def dash : GoStr := ['-']

/-- Go `strings.ToLower` (per-character; only ASCII matters here). -/
def goToLower (s : GoStr) : GoStr := s.map Char.toLower

/-- Go `strings.HasSuffix`. -/
def goHasSuffix (s suf : GoStr) : Bool := decide (suf <:+ s)

/-- Split off the part of `s` before and after the first occurrence of `sep`. -/
def splitFirst (sep : Char) : GoStr → Option (GoStr × GoStr)
  | [] => none
  | c :: s =>
    if c = sep then some ([], s)
    else
      match splitFirst sep s with
      | none => none
      | some (a, b) => some (c :: a, b)

/-- Go `strings.SplitN` with a single-character separator: at most `n`
substrings, the last one being the unsplit remainder; `nil` for `n = 0`. -/
def goSplitN (sep : Char) : GoStr → Nat → List GoStr
  | _, 0 => []
  | s, n + 1 =>
    if n = 0 then [s]
    else
      match splitFirst sep s with
      | none => [s]
      | some (a, b) => a :: goSplitN sep b n

/-- Unbounded split (Go `strings.Split`); used to reason about `goSplitN`. -/
def splitAll (sep : Char) : GoStr → List GoStr
  | [] => [[]]
  | c :: s =>
    if c = sep then [] :: splitAll sep s
    else
      match splitAll sep s with
      | [] => [[c]]
      | a :: t => (c :: a) :: t

/-- Go `strings.Join` with a single-character separator. -/
def joinSep (sep : Char) : List GoStr → GoStr
  | [] => []
  | [a] => a
  | a :: b :: rest => a ++ sep :: joinSep sep (b :: rest)

/-- Go `path.Split`: the file part, i.e. everything after the final slash. -/
def pathFile (p : GoStr) : GoStr := (p.reverse.takeWhile (fun c => c != '/')).reverse

/-- Go `path.Split`: the directory part, up to and including the final slash. -/
def pathDir (p : GoStr) : GoStr := (p.reverse.dropWhile (fun c => c != '/')).reverse

/-- Go `path/filepath.Ext`: the suffix starting at the final dot in the final
path element; empty if that element has no dot. -/
def filepathExt (p : GoStr) : GoStr :=
  if (p.reverse.takeWhile (fun c => c != '/')).contains '.' then
    '.' :: ((p.reverse.takeWhile (fun c => c != '/')).takeWhile (fun c => c != '.')).reverse
  else []

/-- The error kinds produced by the embedded program (one constructor per
distinct error return in main.go). -/
inductive GoErr where
  | detectFailed
  | conflictSuffix
  | conflictForce
  | conflictKeep
  | testOpenErr
  | testFailed
  | stdinNeedsStdout
  | stdinSuffix
  | statErr
  | walkErr
  | isDirectory
  | emptySuffix
  | noSuffixMatch
  | cantStrip
  | outExists
  | outIsDir
  | removeOutErr
  | createErr
  | copyErr
  | removeInErr
deriving DecidableEq

/-- main.go `getDefaultSuffix`. -/
def getDefaultSuffix (algo : GoStr) : GoStr :=
  if algo = "brotli".data then "br".data
  else if algo = "zlib".data then "zlib".data
  else if algo = "bzip2".data then "bz2".data
  else if algo = "s2".data then "s2".data
  else if algo = "zstd".data then "zst".data
  else if algo = "lzma".data then "lzma".data
  else if algo = "xz".data then "xz".data
  else if algo = "lz4".data then "lz4".data
  else "gz".data

/-- The `switch ext` statement inside main.go `getAlgorithmFromExtension`. -/
def extSwitch (e : GoStr) : Except GoStr GoStr :=
  if e = "gz".data then .ok "gzip".data
  else if e = "zlib".data then .ok "zlib".data
  else if e = "bz2".data then .ok "bzip2".data
  else if e = "s2".data then .ok "s2".data
  else if e = "zst".data then .ok "zstd".data
  else if e = "lzma".data then .ok "lzma".data
  else if e = "xz".data then .ok "xz".data
  else if e = "lz4".data then .ok "lz4".data
  else if e = "br".data then .ok "brotli".data
  else .error ("unsupported extension: .".data ++ e)

/-- main.go `getAlgorithmFromExtension`. -/
def getAlgorithmFromExtension (filename : GoStr) : Except GoStr GoStr :=
  if goToLower (filepathExt filename) = [] then .error "file has no extension".data
  else extSwitch ((goToLower (filepathExt filename)).drop 1)

/-- The extension→algorithm table as listed by the spec, for comparison with
the switch in `getAlgorithmFromExtension`. -/
def extAlgoTable : List (GoStr × GoStr) :=
  [("gz".data, "gzip".data), ("zlib".data, "zlib".data), ("bz2".data, "bzip2".data),
   ("s2".data, "s2".data), ("zst".data, "zstd".data), ("lzma".data, "lzma".data),
   ("xz".data, "xz".data), ("lz4".data, "lz4".data), ("br".data, "brotli".data)]

/-- main.go `processFile` lines 467-476: extension detection for decompress and
test mode on a named file, with an explicit `--algorithm` flag taking
precedence over the detected value. -/
def resolveJobAlgorithm (dec tst : Bool) (p : GoStr) (algoSet : Bool) (algoFlag : GoStr) :
    Except GoErr GoStr :=
  if (dec || tst) = true ∧ p ≠ dash then
    match getAlgorithmFromExtension p with
    | .error _ => .error .detectFailed
    | .ok det => .ok (if algoSet then algoFlag else det)
  else .ok algoFlag

/-- main.go `processFile` lines 478-487: the effective suffix is the flag value
when the user set `-S`, the algorithm's default otherwise. -/
def effSuffix (suffixSet : Bool) (suffixFlag : GoStr) (algo : GoStr) : GoStr :=
  if suffixSet then suffixFlag else getDefaultSuffix algo

/-- main.go `processFile` lines 602-614: the decompression output path.  The
name part must end in `"." ++ sfx` and be longer than it; the result rejoins
all dot-separated components of the name but the last one. -/
def resolveDecompOut (inFilePath sfx : GoStr) : Except GoErr GoStr :=
  if goHasSuffix (pathFile inFilePath) ('.' :: sfx) then
    if ('.' :: sfx).length < (pathFile inFilePath).length then
      .ok (pathDir inFilePath ++
        joinSep '.' (List.dropLast (goSplitN '.' (pathFile inFilePath)
          (pathFile inFilePath).length)))
    else .error .cantStrip
  else .error .noSuffixMatch

/-- The command-line flag state of the batch variant of main.go (globals at
lines 354-368, plus which flags were explicitly set by the user). -/
structure Flags where
  stdout : Bool
  decompress : Bool
  force : Bool
  verbose : Bool
  keep : Bool
  suffixSet : Bool
  suffixFlag : GoStr
  test : Bool
  recursive : Bool
  algoSet : Bool
  algoFlag : GoStr
  level : Int
  coresSet : Bool
  cores : Int

/-- The filesystem/stream oracle: outcome of each I/O operation the program
may attempt, keyed by path (stdin is the path `"-"`). -/
structure World where
  lstat : GoStr → Except Unit Bool
  statTop : GoStr → Except Unit Bool
  walkEntries : GoStr → List (GoStr × Except Unit Bool)
  openOk : GoStr → Bool
  decodeOk : GoStr → Bool
  createOk : GoStr → Bool
  copyOk : GoStr → Bool
  removeOk : GoStr → Bool

/-- Filesystem mutations performed by a job, in order.  `writeOut o` marks the
output `o` as fully and successfully written (the final `io.Copy` returned
without error). -/
inductive Eff where
  | removeOutput (p : GoStr)
  | create (p : GoStr)
  | writeOut (p : GoStr)
  | removeInput (p : GoStr)
deriving DecidableEq

/-- main.go `processFile` lines 489-498: the stdout mutual-exclusion checks. -/
def conflictCheck (cfg : Flags) : Option GoErr :=
  if cfg.stdout && cfg.suffixSet then some .conflictSuffix
  else if cfg.stdout && cfg.force then some .conflictForce
  else if cfg.stdout && cfg.keep then some .conflictKeep
  else none

/-- main.go `processFile` lines 503-572 (test mode): open the source unless it
is stdin, read it through the decompressing reader into `io.Discard`; any
reader-construction or copy error surfaces as a test failure. -/
def testRun (cfg : Flags) (w : World) (p : GoStr) : Except GoErr Unit :=
  if p ≠ dash ∧ w.openOk p = false then .error .testOpenErr
  else if w.decodeOk p = false then .error .testFailed
  else .ok ()

/-- Modelled from the spec (the Codec Adapter contract: each codec validates
the level against its own algorithm-specific range) and the codec libraries'
documented contracts, for the writer constructors at main.go lines 753-840:
`compress/gzip` and `compress/zlib` accept levels -2..9 and reject the rest;
`dsnet/compress/bzip2` accepts 0 (mapped to its default) or 1..9;
`klauspost/compress/zstd`'s `WithEncoderLevel` accepts only its
`EncoderLevel` values `SpeedFastest`..`SpeedBestCompression` (1..4).  The s2,
lzma, lz4, xz and brotli constructor calls in this code have no
level-dependent error return (brotli accepts qualities up to 11). -/
def writerLevelOk (algo : GoStr) (level : Int) : Bool :=
  if algo = "gzip".data then decide (-2 ≤ level ∧ level ≤ 9)
  else if algo = "zlib".data then decide (-2 ≤ level ∧ level ≤ 9)
  else if algo = "bzip2".data then decide (level = 0 ∨ (1 ≤ level ∧ level ≤ 9))
  else if algo = "zstd".data then decide (1 ≤ level ∧ level ≤ 4)
  else true

/-- Whether the producer/codec/consumer copy of one job succeeds: on
decompression the encoded stream must decode; on compression the writer
constructor must accept the level (`writerLevelOk`, surfacing through the pipe
like any producer-side failure); and the raw copy must succeed. -/
def streamOk (cfg : Flags) (w : World) (algo p : GoStr) : Bool :=
  (if cfg.decompress then w.decodeOk p else writerLevelOk algo cfg.level) && w.copyOk p

/-- main.go `processFile` lines 897-904: after the pipeline finishes
successfully, remove the original unless writing to stdout, keeping originals,
or reading stdin. -/
def finishRemove (cfg : Flags) (w : World) (p : GoStr) (acc : List Eff) :
    Except GoErr Unit × List Eff :=
  if cfg.stdout = false ∧ cfg.keep = false ∧ p ≠ dash then
    if w.removeOk p = true then (.ok (), acc ++ [Eff.removeInput p])
    else (.error .removeInErr, acc)
  else (.ok (), acc)

/-- main.go `processFile` lines 637-894: the producer/consumer pipe, collapsed
to its observable outcomes.  A producer-side failure — the input open, or on
compression the writer constructor rejecting the level (`writerLevelOk`) —
propagates through the pipe to the consumer's copy; the output file (when not
stdout) is created before the copy, and `Eff.writeOut` is recorded only when
the whole copy succeeds, after which the original may be removed. -/
def pipelineRun (cfg : Flags) (w : World) (algo p : GoStr) (out : Option GoStr)
    (acc : List Eff) : Except GoErr Unit × List Eff :=
  match out with
  | some o =>
    if w.createOk o = false then (.error .createErr, acc)
    else if p ≠ dash ∧ w.openOk p = false then (.error .copyErr, acc ++ [Eff.create o])
    else if streamOk cfg w algo p = false then (.error .copyErr, acc ++ [Eff.create o])
    else finishRemove cfg w p (acc ++ [Eff.create o, Eff.writeOut o])
  | none =>
    if p ≠ dash ∧ w.openOk p = false then (.error .copyErr, acc)
    else if streamOk cfg w algo p = false then (.error .copyErr, acc)
    else finishRemove cfg w p acc

/-- main.go `processFile`: one job, returning its result and the ordered trace
of filesystem mutations it performed. -/
def processFile (cfg : Flags) (w : World) (p : GoStr) : Except GoErr Unit × List Eff :=
  match resolveJobAlgorithm cfg.decompress cfg.test p cfg.algoSet cfg.algoFlag with
  | .error e => (.error e, [])
  | .ok algo =>
    match conflictCheck cfg with
    | some e => (.error e, [])
    | none =>
      if cfg.test then (testRun cfg w p, [])
      else if p = dash then
        if cfg.stdout = false then (.error .stdinNeedsStdout, [])
        else if cfg.suffixSet = true then (.error .stdinSuffix, [])
        else pipelineRun cfg w algo p none []
      else
        match w.lstat p with
        | .error _ => (.error .statErr, [])
        | .ok true => (.error .isDirectory, [])
        | .ok false =>
          if cfg.stdout = true then pipelineRun cfg w algo p none []
          else if effSuffix cfg.suffixSet cfg.suffixFlag algo = [] then (.error .emptySuffix, [])
          else
            match (if cfg.decompress then
                     resolveDecompOut p (effSuffix cfg.suffixSet cfg.suffixFlag algo)
                   else .ok (p ++ '.' :: effSuffix cfg.suffixSet cfg.suffixFlag algo)) with
            | .error e => (.error e, [])
            | .ok out =>
              match w.lstat out with
              | .error _ => pipelineRun cfg w algo p (some out) []
              | .ok outIsDir =>
                if cfg.force = false then (.error .outExists, [])
                else if outIsDir = true then (.error .outIsDir, [])
                else if w.removeOk out = false then (.error .removeOutErr, [])
                else pipelineRun cfg w algo p (some out) [Eff.removeOutput out]

/-- The aggregate state of a batch run: the shared failure flag and the logged
(path, error) lines. -/
structure BatchState where
  hasErrors : Bool
  log : List (GoStr × GoErr)
deriving DecidableEq

def initState : BatchState := ⟨false, []⟩

/-- main.go lines 1037-1054: handling of one entry discovered by
`filepath.Walk` inside the recursive branch (walk errors are logged and
skipped; directories are skipped; regular files become jobs). -/
def walkOne (cfg : Flags) (w : World) (st : BatchState) (e : GoStr × Except Unit Bool) :
    BatchState :=
  match e.2 with
  | .error _ => ⟨true, st.log ++ [(e.1, GoErr.walkErr)]⟩
  | .ok true => st
  | .ok false =>
    match (processFile cfg w e.1).1 with
    | .error er => ⟨true, st.log ++ [(e.1, er)]⟩
    | .ok _ => st

/-- main.go lines 1015-1075: handling of one top-level argument. -/
def runOne (cfg : Flags) (w : World) (st : BatchState) (f : GoStr) : BatchState :=
  if f = dash then
    match (processFile cfg w f).1 with
    | .error e => ⟨true, st.log ++ [(f, e)]⟩
    | .ok _ => st
  else
    match w.statTop f with
    | .error _ => ⟨true, st.log ++ [(f, GoErr.statErr)]⟩
    | .ok true =>
      if cfg.recursive then (w.walkEntries f).foldl (walkOne cfg w) st
      else ⟨true, st.log ++ [(f, GoErr.isDirectory)]⟩
    | .ok false =>
      match (processFile cfg w f).1 with
      | .error e => ⟨true, st.log ++ [(f, e)]⟩
      | .ok _ => st

/-- main.go lines 1006-1078: process every argument, accumulating the shared
failure flag and log. -/
def runBatch (cfg : Flags) (w : World) (files : List GoStr) : BatchState :=
  files.foldl (runOne cfg w) initState

/-- main.go lines 1079-1081: exit status 1 when any job failed, 0 otherwise. -/
def mainExitCode (st : BatchState) : Nat := if st.hasErrors then 1 else 0

/-- The log entries contributed by one walk entry. -/
def wEntryLog (cfg : Flags) (w : World) (e : GoStr × Except Unit Bool) : List (GoStr × GoErr) :=
  match e.2 with
  | .error _ => [(e.1, GoErr.walkErr)]
  | .ok true => []
  | .ok false =>
    match (processFile cfg w e.1).1 with
    | .error er => [(e.1, er)]
    | .ok _ => []

/-- The log entries contributed by one top-level argument, independent of the
state accumulated from earlier arguments. -/
def fileEntries (cfg : Flags) (w : World) (f : GoStr) : List (GoStr × GoErr) :=
  (runOne cfg w initState f).log

inductive UsageErr where
  | invalidLevel
  | invalidAlgorithm
  | invalidCores
deriving DecidableEq

def validAlgorithms : List GoStr :=
  ["brotli".data, "gzip".data, "zlib".data, "bzip2".data, "s2".data, "zstd".data,
   "lzma".data, "xz".data, "lz4".data]

/-- main.go `main` lines 963-993: pre-dispatch flag validation, in source
order: level, algorithm, cores.  Only `level > 11` is rejected as an invalid
level. -/
def validateMain (cfg : Flags) : Option UsageErr :=
  if cfg.level > 11 then some .invalidLevel
  else if validAlgorithms.contains (goToLower cfg.algoFlag) = false then some .invalidAlgorithm
  else if cfg.coresSet = true ∧ (cfg.cores < 1 ∨ cfg.cores > 32) then some .invalidCores
  else none

inductive MainOutcome where
  | fatal (u : UsageErr)
  | completed (st : BatchState) (exitCode : Nat)
deriving DecidableEq

/-- main.go `main` lines 950-1081: validate flags (fatal usage error before any
dispatch), default to stdin when no file is given, run the batch, exit. -/
def aioMain (cfg : Flags) (w : World) (files : List GoStr) : MainOutcome :=
  match validateMain cfg with
  | some u => .fatal u
  | none =>
    let fs := if files = [] then [dash] else files
    let st := runBatch cfg w fs
    .completed st (mainExitCode st)

/-- The writer option chosen by the `case "s2"` switch in main.go lines
775-783: `s2.WriterBetterCompression()` for level ≤ 3,
`s2.WriterBestCompression()` for level ≥ 7, the plain default writer
otherwise. -/
inductive S2Choice where
  | plain
  | better
  | best
deriving DecidableEq

def s2WriterChoice (level : Int) : S2Choice :=
  if level ≤ 3 then .better
  else if level ≥ 7 then .best
  else .plain

inductive Tier where
  | low
  | medium
  | high
deriving DecidableEq

/-- Modelled from the spec: the s2 codec is the tri-tier codec (low = fastest,
high = best compression); in the s2 library the plain `NewWriter` is the
fastest tier, `WriterBetterCompression` the medium tier and
`WriterBestCompression` the best tier. -/
def s2TierOfChoice : S2Choice → Tier
  | .plain => .low
  | .better => .medium
  | .best => .high

/-- main.go `main` lines 953-961, unrolled: when `-l` was not set, take the
first digit flag among `-1` .. `-9` that the user set (the loop breaks at the
first hit). -/
def digitScan (digits : List Nat) : Option Nat :=
  if 1 ∈ digits then some 1
  else if 2 ∈ digits then some 2
  else if 3 ∈ digits then some 3
  else if 4 ∈ digits then some 4
  else if 5 ∈ digits then some 5
  else if 6 ∈ digits then some 6
  else if 7 ∈ digits then some 7
  else if 8 ∈ digits then some 8
  else if 9 ∈ digits then some 9
  else none

/-- The effective compression level after main.go lines 953-961: `parsed` is
the level value left by flag parsing (the last assignment wins there), and
`digits` is the set of single-digit level flags the user passed. -/
def correctedLevel (lSet : Bool) (parsed : Int) (digits : List Nat) : Int :=
  if lSet then parsed
  else
    match digitScan digits with
    | some i => (i : Int)
    | none => parsed

/-- Default flag values (main.go lines 354-368). -/
def cfgBase : Flags :=
  { stdout := false, decompress := false, force := false, verbose := false, keep := false,
    suffixSet := false, suffixFlag := "gz".data, test := false, recursive := false,
    algoSet := false, algoFlag := "gzip".data, level := 4, coresSet := false, cores := 0 }

/-- A world in which every top-level argument stats as a regular file and every
stream/filesystem operation succeeds; no path pre-exists for `Lstat`. -/
def wAllOk : World :=
  { lstat := fun _ => .error (), statTop := fun _ => .ok false, walkEntries := fun _ => [],
    openOk := fun _ => true, decodeOk := fun _ => true, createOk := fun _ => true,
    copyOk := fun _ => true, removeOk := fun _ => true }

/-- Like `wAllOk` but the input file `doc` exists as a regular file. -/
def wDoc : World :=
  { wAllOk with lstat := fun q => if q = "doc".data then .ok false else .error () }

/-- Flags with stdout and force both requested. -/
def cfgC6 : Flags := { cfgBase with stdout := true, force := true }

/-- Flags with compression level 10 (outside the nominal 1-9), stdin job,
algorithm brotli (whose writer constructor accepts quality 10). -/
def cfg10 : Flags :=
  { cfgBase with stdout := true, level := 10, algoSet := true, algoFlag := "brotli".data }

/-- Flags with compression level 10, stdin job, default algorithm gzip (whose
writer constructor rejects level 10 mid-job). -/
def cfg10gz : Flags := { cfgBase with stdout := true, level := 10 }

/-- Flags with compression level 12 (above the code's actual bound 11). -/
def cfg12 : Flags := { cfgBase with level := 12 }

/-- Flags requesting test mode. -/
def cfgTest : Flags := { cfgBase with test := true }

instance {ε α : Type} [DecidableEq ε] [DecidableEq α] : DecidableEq (Except ε α) := fun x y =>
  match x, y with
  | .ok a, .ok b =>
    if h : a = b then isTrue (by rw [h])
    else isFalse (fun hc => h (by injection hc))
  | .ok _, .error _ => isFalse (fun hc => Except.noConfusion hc)
  | .error _, .ok _ => isFalse (fun hc => Except.noConfusion hc)
  | .error d, .error e =>
    if h : d = e then isTrue (by rw [h])
    else isFalse (fun hc => h (by injection hc))

/- ===== helper lemmas about the embedded string functions ===== -/

theorem splitFirst_eq_none (sep : Char) (s : GoStr) : sep ∉ s → splitFirst sep s = none := by
  induction s with
  | nil => intro h; rfl
  | cons c t ih =>
    intro h
    have hc : ¬ c = sep := fun hc => h (by simp [hc])
    have ht : sep ∉ t := fun hm => h (List.mem_cons_of_mem _ hm)
    simp [splitFirst, hc, ih ht]

theorem splitAll_of_not_mem (sep : Char) (s : GoStr) : sep ∉ s → splitAll sep s = [s] := by
  induction s with
  | nil => intro h; rfl
  | cons c t ih =>
    intro h
    have hc : ¬ c = sep := fun hc => h (by simp [hc])
    have ht : sep ∉ t := fun hm => h (List.mem_cons_of_mem _ hm)
    simp [splitAll, hc, ih ht]

theorem splitAll_ne_nil (sep : Char) (s : GoStr) : splitAll sep s ≠ [] := by
  cases s with
  | nil => simp [splitAll]
  | cons c t =>
    simp only [splitAll]
    split
    · simp
    · split <;> simp

theorem splitFirst_none_splitAll (sep : Char) (s : GoStr) (h : splitFirst sep s = none) :
    splitAll sep s = [s] := by
  induction s with
  | nil => rfl
  | cons c t ih =>
    by_cases hc : c = sep
    · simp [splitFirst, hc] at h
    · simp only [splitFirst, if_neg hc] at h
      cases hsf : splitFirst sep t with
      | some ab => rw [hsf] at h; simp at h
      | none => simp [splitAll, hc, ih hsf]

theorem splitFirst_some_splitAll (sep : Char) (s : GoStr) : ∀ a b : GoStr,
    splitFirst sep s = some (a, b) → splitAll sep s = a :: splitAll sep b := by
  induction s with
  | nil => intro a b h; simp [splitFirst] at h
  | cons c t ih =>
    intro a b h
    by_cases hc : c = sep
    · simp only [splitFirst, if_pos hc] at h
      simp at h
      obtain ⟨rfl, rfl⟩ := h
      simp [splitAll, hc]
    · simp only [splitFirst, if_neg hc] at h
      cases hsf : splitFirst sep t with
      | none => rw [hsf] at h; simp at h
      | some ab =>
        obtain ⟨a', b'⟩ := ab
        rw [hsf] at h
        simp at h
        obtain ⟨rfl, rfl⟩ := h
        simp [splitAll, hc, ih a' b' hsf]

theorem joinSep_cons (sep : Char) (a : GoStr) (rest : List GoStr) (h : rest ≠ []) :
    joinSep sep (a :: rest) = a ++ sep :: joinSep sep rest := by
  cases rest with
  | nil => exact absurd rfl h
  | cons b r => rfl

theorem joinSep_splitAll (sep : Char) (s : GoStr) : joinSep sep (splitAll sep s) = s := by
  induction s with
  | nil => rfl
  | cons c t ih =>
    by_cases hc : c = sep
    · simp only [splitAll, if_pos hc]
      rw [joinSep_cons sep [] _ (splitAll_ne_nil sep t), ih, hc]
      rfl
    · simp only [splitAll, if_neg hc]
      cases h : splitAll sep t with
      | nil => exact absurd h (splitAll_ne_nil sep t)
      | cons a r =>
        rw [h] at ih
        cases r with
        | nil => simpa [joinSep] using ih
        | cons b rr =>
          rw [joinSep_cons _ _ _ (by simp)]
          rw [joinSep_cons _ _ _ (by simp)] at ih
          simpa using ih

theorem splitAll_single (sep : Char) (s a : GoStr) (h : splitAll sep s = [a]) : a = s := by
  have hj := joinSep_splitAll sep s
  rw [h] at hj
  simpa [joinSep] using hj

theorem goSplitN_eq_splitAll (sep : Char) : ∀ (n : Nat) (s : GoStr),
    (splitAll sep s).length ≤ n → goSplitN sep s n = splitAll sep s := by
  intro n
  induction n with
  | zero =>
    intro s h
    rw [Nat.le_zero] at h
    exact absurd (List.length_eq_zero.mp h) (splitAll_ne_nil sep s)
  | succ n ih =>
    intro s h
    by_cases hn : n = 0
    · subst hn
      have h1 : splitAll sep s = [s] := by
        cases hs : splitAll sep s with
        | nil => exact absurd hs (splitAll_ne_nil sep s)
        | cons a t =>
          rw [hs, List.length_cons] at h
          have ht : t = [] := List.length_eq_zero.mp (by omega)
          subst ht
          have ha := splitAll_single sep s a hs
          rw [ha]
      rw [h1]
      rfl
    · simp only [goSplitN, if_neg hn]
      cases hsf : splitFirst sep s with
      | none => rw [splitFirst_none_splitAll sep s hsf]
      | some ab =>
        obtain ⟨a, b⟩ := ab
        have hsa := splitFirst_some_splitAll sep s a b hsf
        rw [hsa]
        show a :: goSplitN sep b n = a :: splitAll sep b
        congr 1
        apply ih
        rw [hsa] at h
        simp at h
        omega

theorem splitAll_append (sep : Char) (s : GoStr) (hs : sep ∉ s) : ∀ b : GoStr,
    splitAll sep (b ++ sep :: s) = splitAll sep b ++ [s] := by
  intro b
  induction b with
  | nil =>
    simp only [List.nil_append, splitAll, if_pos rfl]
    rw [splitAll_of_not_mem sep s hs]
    rfl
  | cons c b' ih =>
    by_cases hc : c = sep
    · show splitAll sep (c :: (b' ++ sep :: s)) = splitAll sep (c :: b') ++ [s]
      simp only [splitAll, if_pos hc]
      rw [ih]
      rfl
    · show splitAll sep (c :: (b' ++ sep :: s)) = splitAll sep (c :: b') ++ [s]
      simp only [splitAll, if_neg hc]
      rw [ih]
      cases h : splitAll sep b' with
      | nil => exact absurd h (splitAll_ne_nil sep b')
      | cons a t => simp

theorem splitAll_length_le (sep : Char) (s : GoStr) : (splitAll sep s).length ≤ s.length + 1 := by
  induction s with
  | nil => simp [splitAll]
  | cons c t ih =>
    by_cases hc : c = sep
    · simp only [splitAll, if_pos hc, List.length_cons]
      simpa using ih
    · simp only [splitAll, if_neg hc]
      cases h : splitAll sep t with
      | nil => simp
      | cons a r =>
        rw [h] at ih
        simp only [List.length_cons] at ih ⊢
        omega

theorem prefix_takeWhile {p : Char → Bool} {l t : GoStr} (h : l <+: t)
    (hall : ∀ a ∈ l, p a = true) : l <+: t.takeWhile p := by
  obtain ⟨r, rfl⟩ := h
  rw [List.takeWhile_append_of_pos hall]
  exact List.prefix_append l _

theorem pathDir_append_pathFile (p : GoStr) : pathDir p ++ pathFile p = p := by
  unfold pathDir pathFile
  rw [← List.reverse_append, List.takeWhile_append_dropWhile, List.reverse_reverse]

theorem suffix_pathFile {s p : GoStr} (h : s <:+ p) (hs : ∀ a ∈ s, (a != '/') = true) :
    s <:+ pathFile p := by
  have h' : s.reverse <+: p.reverse := List.reverse_prefix.mpr h
  have hall : ∀ a ∈ s.reverse, (a != '/') = true := by
    intro a ha
    exact hs a (List.mem_reverse.mp ha)
  have h2 : s.reverse <+: p.reverse.takeWhile (fun c => c != '/') :=
    prefix_takeWhile h' hall
  have h3 := (@List.reverse_suffix Char s.reverse
    (p.reverse.takeWhile (fun c => c != '/'))).mpr h2
  rw [List.reverse_reverse] at h3
  exact h3

theorem no_slash_mem {s : GoStr} (h : '/' ∉ s) : ∀ a ∈ s, (a != '/') = true := by
  intro a ha
  simp only [bne_iff_ne, ne_eq]
  rintro rfl
  exact h ha

/-- The heart of the suffix-stripping logic: for a dot-free suffix, dropping
the last dot-component of `b ++ '.' :: sfx` and rejoining gives back `b`. -/
theorem strip_last_component (b sfx : GoStr) (h2 : '.' ∉ sfx) (h1 : sfx ≠ []) :
    joinSep '.' (List.dropLast (goSplitN '.' (b ++ '.' :: sfx) (b ++ '.' :: sfx).length)) = b := by
  have hsplit : splitAll '.' (b ++ '.' :: sfx) = splitAll '.' b ++ [sfx] :=
    splitAll_append '.' sfx h2 b
  have hlen : (splitAll '.' (b ++ '.' :: sfx)).length ≤ (b ++ '.' :: sfx).length := by
    rw [hsplit]
    have hb := splitAll_length_le '.' b
    have hs1 : 1 ≤ sfx.length := by
      cases sfx with
      | nil => exact absurd rfl h1
      | cons x xs => simp
    simp only [List.length_append, List.length_cons, List.length_nil]
    omega
  rw [goSplitN_eq_splitAll '.' _ _ hlen, hsplit, List.dropLast_concat, joinSep_splitAll]

/-- Success case of the decompression output resolver, for a dot-free,
slash-free suffix: the result is exactly the input with the trailing
`"." ++ sfx` removed. -/
theorem resolveDecompOut_ok (q sfx : GoStr) (h1 : sfx ≠ []) (h2 : '.' ∉ sfx)
    (h3 : '/' ∉ sfx) (h4 : pathFile (q ++ '.' :: sfx) ≠ '.' :: sfx) :
    resolveDecompOut (q ++ '.' :: sfx) sfx = .ok q := by
  have hsufp : ('.' :: sfx) <:+ (q ++ '.' :: sfx) := ⟨q, rfl⟩
  have hslash : ∀ a ∈ ('.' :: sfx), (a != '/') = true := by
    intro a ha
    rcases List.mem_cons.mp ha with h | h
    · subst h; decide
    · exact no_slash_mem h3 a h
  have hsufName : ('.' :: sfx) <:+ pathFile (q ++ '.' :: sfx) :=
    suffix_pathFile hsufp hslash
  obtain ⟨b, hb⟩ := hsufName
  have hbne : b ≠ [] := by
    rintro rfl
    exact h4 (by rw [← hb]; rfl)
  have hhs : goHasSuffix (pathFile (q ++ '.' :: sfx)) ('.' :: sfx) = true := by
    unfold goHasSuffix
    exact decide_eq_true ⟨b, hb⟩
  have hlt : ('.' :: sfx).length < (pathFile (q ++ '.' :: sfx)).length := by
    rw [← hb, List.length_append]
    have : 1 ≤ b.length := by
      cases b with
      | nil => exact absurd rfl hbne
      | cons x xs => simp
    omega
  unfold resolveDecompOut
  rw [hhs, if_pos rfl, if_pos hlt]
  rw [← hb, strip_last_component b sfx h2 h1]
  have hq : (pathDir (q ++ '.' :: sfx) ++ b) ++ '.' :: sfx = q ++ '.' :: sfx := by
    rw [List.append_assoc, hb, pathDir_append_pathFile]
  rw [List.append_cancel_right hq]

/-- Failure case: the name part of the input does not end in `"." ++ sfx`. -/
theorem resolveDecompOut_no_suffix (p sfx : GoStr)
    (h : goHasSuffix (pathFile p) ('.' :: sfx) = false) :
    resolveDecompOut p sfx = .error .noSuffixMatch := by
  unfold resolveDecompOut
  rw [h]
  rfl

/-- Failure case: the name part is exactly `"." ++ sfx`, so stripping would
leave an empty basename. -/
theorem resolveDecompOut_empty_base (p sfx : GoStr) (h : pathFile p = '.' :: sfx) :
    resolveDecompOut p sfx = .error .cantStrip := by
  unfold resolveDecompOut
  rw [h]
  have hhs : goHasSuffix ('.' :: sfx) ('.' :: sfx) = true :=
    decide_eq_true (List.suffix_refl _)
  rw [hhs, if_pos rfl, if_neg (lt_irrefl _)]

/-- For a filename of the shape `stem ++ "." ++ e` with a slash-free, dot-free
extension `e`, `filepathExt` returns `"." ++ e`. -/
theorem filepathExt_append (stem e : GoStr) (h1 : '/' ∉ e) (h2 : '.' ∉ e) :
    filepathExt (stem ++ '.' :: e) = '.' :: e := by
  have hrev : (stem ++ '.' :: e).reverse = e.reverse ++ '.' :: stem.reverse := by
    rw [List.reverse_append, List.reverse_cons, List.append_assoc]
    rfl
  have hall : ∀ a ∈ e.reverse, (a != '/') = true := by
    intro a ha
    exact no_slash_mem h1 a (List.mem_reverse.mp ha)
  have htw : (stem ++ '.' :: e).reverse.takeWhile (fun c => c != '/') =
      e.reverse ++ '.' :: stem.reverse.takeWhile (fun c => c != '/') := by
    rw [hrev, List.takeWhile_append_of_pos hall, List.takeWhile_cons]
    rfl
  have hmem : ('.' :: e).reverse.takeWhile (fun c => c != '/') = [] ∨ True := Or.inr trivial
  unfold filepathExt
  rw [htw]
  have hcontains : (e.reverse ++ '.' :: stem.reverse.takeWhile (fun c => c != '/')).contains
      '.' = true := by
    simp
  rw [hcontains, if_pos rfl]
  have hdots : ∀ a ∈ e.reverse, (a != '.') = true := by
    intro a ha
    simp only [bne_iff_ne, ne_eq]
    rintro rfl
    exact h2 (List.mem_reverse.mp ha)
  rw [List.takeWhile_append_of_pos hdots, List.takeWhile_cons]
  simp

/-- First-match association lookup over the extension table. -/
def tableLookup (key : GoStr) : List (GoStr × GoStr) → Option GoStr
  | [] => none
  | (k, v) :: t => if key = k then some v else tableLookup key t

/-- The `switch` on extensions agrees pointwise with the spec's lookup
table. -/
theorem extSwitch_eq_lookup (e : GoStr) :
    extSwitch e = (match tableLookup e extAlgoTable with
      | some a => Except.ok a
      | none => Except.error ("unsupported extension: .".data ++ e)) := by
  unfold extSwitch extAlgoTable
  simp only [tableLookup]
  split_ifs <;> rfl

/-- Extension detection on `stem ++ "." ++ e` equals a lookup of the
lowercased extension in the spec's table. -/
theorem getAlgorithmFromExtension_table (stem e : GoStr) (h1 : '/' ∉ e) (h2 : '.' ∉ e) :
    getAlgorithmFromExtension (stem ++ '.' :: e) =
      (match tableLookup (goToLower e) extAlgoTable with
       | some a => Except.ok a
       | none => Except.error ("unsupported extension: .".data ++ goToLower e)) := by
  have hx := filepathExt_append stem e h1 h2
  have hd : Char.toLower '.' = '.' := by decide
  unfold getAlgorithmFromExtension
  rw [hx]
  have hlow : goToLower ('.' :: e) = '.' :: goToLower e := by
    simp [goToLower, hd]
  rw [hlow]
  rw [if_neg (by simp)]
  rw [List.drop_one, List.tail_cons]
  exact extSwitch_eq_lookup _

/-- A filename whose final path element has no dot has no detectable
extension. -/
theorem getAlgorithmFromExtension_none (p : GoStr) (h : filepathExt p = []) :
    getAlgorithmFromExtension p = Except.error "file has no extension".data := by
  unfold getAlgorithmFromExtension
  rw [h]
  rfl

/- ===== lemmas about the processFile embedding ===== -/

theorem finishRemove_skip (cfg : Flags) (w : World) (p : GoStr) (acc : List Eff)
    (h : cfg.stdout = true ∨ cfg.keep = true ∨ p = dash) :
    finishRemove cfg w p acc = (.ok (), acc) := by
  unfold finishRemove
  rw [if_neg]
  rintro ⟨h1, h2, h3⟩
  rcases h with h | h | h
  · rw [h] at h1; simp at h1
  · rw [h] at h2; simp at h2
  · exact h3 h

theorem conflictCheck_some (cfg : Flags) (h1 : cfg.stdout = true)
    (h2 : cfg.suffixSet = true ∨ cfg.force = true ∨ cfg.keep = true) :
    ∃ e, conflictCheck cfg = some e := by
  unfold conflictCheck
  rw [h1]
  by_cases hs : cfg.suffixSet = true
  · rw [hs]
    exact ⟨.conflictSuffix, rfl⟩
  · rw [Bool.not_eq_true] at hs
    rw [hs]
    by_cases hf : cfg.force = true
    · rw [hf]
      exact ⟨.conflictForce, rfl⟩
    · rw [Bool.not_eq_true] at hf
      rw [hf]
      by_cases hk : cfg.keep = true
      · rw [hk]
        exact ⟨.conflictKeep, rfl⟩
      · rw [Bool.not_eq_true] at hk
        rcases h2 with h | h | h
        · rw [h] at hs; simp at hs
        · rw [h] at hf; simp at hf
        · rw [h] at hk; simp at hk

/-- For the producer/consumer pipeline: if the trace passed in contains no
input removal, then (a) an erroneous run never removes the input, and (b) an
input removal in the resulting trace implies that the job writes to a file
(not stdout), does not keep originals, does not read stdin, and the removal is
the final mutation, after the output was fully written. -/
theorem pipelineRun_spec (cfg : Flags) (w : World) (algo p : GoStr) (out : Option GoStr)
    (acc : List Eff) (hacc : ∀ q, Eff.removeInput q ∉ acc)
    (hout : out = none → cfg.stdout = true ∨ p = dash) :
    (∀ e, (pipelineRun cfg w algo p out acc).1 = .error e →
       ∀ q, Eff.removeInput q ∉ (pipelineRun cfg w algo p out acc).2)
    ∧ (∀ q, Eff.removeInput q ∈ (pipelineRun cfg w algo p out acc).2 →
       q = p ∧ cfg.stdout = false ∧ cfg.keep = false ∧ p ≠ dash ∧
       ∃ pre o, (pipelineRun cfg w algo p out acc).2 = pre ++ [Eff.removeInput p] ∧
         Eff.writeOut o ∈ pre) := by
  cases out with
  | none =>
    have hso : cfg.stdout = true ∨ cfg.keep = true ∨ p = dash := by
      rcases hout rfl with h | h
      · exact Or.inl h
      · exact Or.inr (Or.inr h)
    unfold pipelineRun
    split_ifs with hc1 hc2
    · exact ⟨fun e _ q => hacc q, fun q hq => absurd hq (hacc q)⟩
    · exact ⟨fun e _ q => hacc q, fun q hq => absurd hq (hacc q)⟩
    · rw [finishRemove_skip cfg w p acc hso]
      constructor
      · intro e he
        simp at he
      · intro q hq
        exact absurd hq (hacc q)
  | some o =>
    simp only [pipelineRun]
    split_ifs with hc1 hc2 hc3
    · exact ⟨fun e _ q => hacc q, fun q hq => absurd hq (hacc q)⟩
    · constructor
      · intro e _ q hq
        rcases List.mem_append.mp hq with h | h
        · exact hacc q h
        · simp at h
      · intro q hq
        rcases List.mem_append.mp hq with h | h
        · exact absurd h (hacc q)
        · simp at h
    · constructor
      · intro e _ q hq
        rcases List.mem_append.mp hq with h | h
        · exact hacc q h
        · simp at h
      · intro q hq
        rcases List.mem_append.mp hq with h | h
        · exact absurd h (hacc q)
        · simp at h
    · unfold finishRemove
      split_ifs with hcond hrem
      · constructor
        · intro e he
          simp at he
        · intro q hq
          rcases List.mem_append.mp hq with h | h
          · rcases List.mem_append.mp h with h' | h'
            · exact absurd h' (hacc q)
            · simp at h'
          · simp at h
            subst h
            exact ⟨rfl, hcond.1, hcond.2.1, hcond.2.2,
              acc ++ [Eff.create o, Eff.writeOut o], o, rfl, by simp⟩
      · constructor
        · intro e _ q hq
          rcases List.mem_append.mp hq with h | h
          · exact hacc q h
          · simp at h
        · intro q hq
          rcases List.mem_append.mp hq with h | h
          · exact absurd h (hacc q)
          · simp at h
      · constructor
        · intro e he
          simp at he
        · intro q hq
          rcases List.mem_append.mp hq with h | h
          · exact absurd h (hacc q)
          · simp at h

/- ===== lemmas about the batch scheduler embedding ===== -/

theorem isEmpty_append_log (l m : List (GoStr × GoErr)) :
    (l ++ m).isEmpty = (l.isEmpty && m.isEmpty) := by
  cases l <;> simp [List.isEmpty]

theorem walkOne_eq (cfg : Flags) (w : World) (st : BatchState) (e : GoStr × Except Unit Bool) :
    walkOne cfg w st e =
      ⟨st.hasErrors || !(wEntryLog cfg w e).isEmpty, st.log ++ wEntryLog cfg w e⟩ := by
  unfold walkOne wEntryLog
  cases he : e.2 with
  | error u => simp
  | ok b =>
    cases b with
    | true => simp
    | false =>
      cases hp : (processFile cfg w e.1).1 with
      | error er => simp
      | ok u => simp

theorem foldl_walkOne (cfg : Flags) (w : World) :
    ∀ (es : List (GoStr × Except Unit Bool)) (st : BatchState),
    es.foldl (walkOne cfg w) st =
      ⟨st.hasErrors || !((es.map (wEntryLog cfg w)).join.isEmpty),
       st.log ++ (es.map (wEntryLog cfg w)).join⟩ := by
  intro es
  induction es with
  | nil => intro st; simp
  | cons e es ih =>
    intro st
    simp only [List.foldl_cons, List.map_cons, List.join]
    rw [walkOne_eq, ih]
    simp [isEmpty_append_log, Bool.or_assoc, List.append_assoc]

theorem runOne_eq (cfg : Flags) (w : World) (st : BatchState) (f : GoStr) :
    runOne cfg w st f =
      ⟨st.hasErrors || !(fileEntries cfg w f).isEmpty, st.log ++ fileEntries cfg w f⟩ := by
  unfold fileEntries runOne
  by_cases hd : f = dash
  · rw [if_pos hd, if_pos hd]
    cases hp : (processFile cfg w f).1 with
    | error e => simp [initState]
    | ok u => simp [initState]
  · rw [if_neg hd, if_neg hd]
    cases hstat : w.statTop f with
    | error u => simp [initState]
    | ok b =>
      cases b with
      | true =>
        by_cases hr : cfg.recursive = true
        · rw [if_pos hr, if_pos hr]
          rw [foldl_walkOne, foldl_walkOne]
          simp [initState]
        · rw [if_neg hr, if_neg hr]
          simp [initState]
      | false =>
        cases hp : (processFile cfg w f).1 with
        | error e => simp [initState]
        | ok u => simp [initState]

theorem foldl_runOne (cfg : Flags) (w : World) :
    ∀ (files : List GoStr) (st : BatchState),
    files.foldl (runOne cfg w) st =
      ⟨st.hasErrors || !((files.map (fileEntries cfg w)).join.isEmpty),
       st.log ++ (files.map (fileEntries cfg w)).join⟩ := by
  intro files
  induction files with
  | nil => intro st; simp
  | cons f fs ih =>
    intro st
    simp only [List.foldl_cons, List.map_cons, List.join]
    rw [runOne_eq, ih]
    simp [isEmpty_append_log, Bool.or_assoc, List.append_assoc]

theorem runBatch_eq (cfg : Flags) (w : World) (files : List GoStr) :
    runBatch cfg w files =
      ⟨!((files.map (fileEntries cfg w)).join.isEmpty),
       (files.map (fileEntries cfg w)).join⟩ := by
  unfold runBatch
  rw [foldl_runOne]
  simp [initState]

/- ===== claim theorems ===== -/

/-- C1: for every batch invocation, the process exit status is 0 iff every job
succeeded (nothing was logged as failing) and 1 iff any job failed,
independent of how many jobs failed. -/
theorem C1_batch_exit_status (cfg : Flags) (w : World) (files : List GoStr) :
    (mainExitCode (runBatch cfg w files) = 0 ↔ (runBatch cfg w files).log = [])
    ∧ (mainExitCode (runBatch cfg w files) = 1 ↔ (runBatch cfg w files).log ≠ []) := by
  rw [runBatch_eq]
  unfold mainExitCode
  cases hj : (files.map (fileEntries cfg w)).join with
  | nil => simp
  | cons a t => simp

/-- C2: every per-file failure after dispatch begins is caught at the job
boundary: handling an argument only appends that argument's own log entries
and ORs its own failure bit into the shared flag (so one job's failure never
aborts or alters the others), a failing regular-file job is logged exactly
once together with its path, and the batch log is the concatenation of every
argument's entries. -/
theorem C2_job_failure_isolation (cfg : Flags) (w : World) :
    (∀ st f, runOne cfg w st f =
        ⟨st.hasErrors || !(fileEntries cfg w f).isEmpty, st.log ++ fileEntries cfg w f⟩)
    ∧ (∀ f e, f ≠ dash → w.statTop f = Except.ok false →
        (processFile cfg w f).1 = Except.error e → fileEntries cfg w f = [(f, e)])
    ∧ (∀ files, (runBatch cfg w files).log = (files.map (fileEntries cfg w)).join) := by
  refine ⟨runOne_eq cfg w, ?_, ?_⟩
  · intro f e hf hstat hp
    unfold fileEntries runOne
    rw [if_neg hf, hstat, hp]
    simp [initState]
  · intro files
    rw [runBatch_eq]

/-- C2 witness: a job whose input cannot be `Lstat`ed fails and contributes
exactly one log line carrying its path. -/
theorem C2_witness :
    fileEntries cfgBase wAllOk "a".data = [("a".data, GoErr.statErr)] :=
  (C2_job_failure_isolation cfgBase wAllOk).2.1 "a".data GoErr.statErr (by decide) rfl rfl

/-- C4 (code bug): for the s2 codec the code maps levels ≤ 3 (including the
`-1`/`--fast` alias) to `s2.WriterBetterCompression()` — the medium tier — and
the default mid levels 4-6 to the plain fastest writer (the low tier); only
levels ≥ 7 get the best tier.  This contradicts the claimed mapping (level ≤ 3
→ low/fastest tier) and the flag's own doc `1 = fastest, 9 = best`. -/
theorem C4_s2_tier_at_failing_levels :
    s2TierOfChoice (s2WriterChoice 1) = Tier.medium
    ∧ s2TierOfChoice (s2WriterChoice 4) = Tier.low
    ∧ s2TierOfChoice (s2WriterChoice 9) = Tier.high := by
  exact ⟨rfl, rfl, rfl⟩

/-- C5 (counterexample): with the dotted suffix `tar.gz`, decompressing
`a.tar.gz` resolves the output to `a.tar` — not to `a`, the input with the
whole trailing `.tar.gz` removed — because the code drops only the final
dot-component. -/
theorem C5_counterexample :
    resolveDecompOut "a.tar.gz".data "tar.gz".data = Except.ok "a.tar".data
    ∧ resolveDecompOut "a.tar.gz".data "tar.gz".data ≠ Except.ok "a".data := by
  constructor
  · decide
  · decide

/-- C5 (amended): when decompressing a named file to a file output with a
dot-free suffix, the output path equals the input path with the trailing
`"." ++ sfx` removed; resolution fails when the input's name part does not
end with `"." ++ sfx`, and when the name part is exactly `"." ++ sfx` (an
empty basename).  With a suffix containing a dot only the part after the
input's final dot is removed (see the counterexample). -/
theorem C5_suffix_strip_spec :
    (∀ q sfx : GoStr, sfx ≠ [] → '.' ∉ sfx → '/' ∉ sfx →
      pathFile (q ++ '.' :: sfx) ≠ '.' :: sfx →
      resolveDecompOut (q ++ '.' :: sfx) sfx = Except.ok q)
    ∧ (∀ p sfx : GoStr, goHasSuffix (pathFile p) ('.' :: sfx) = false →
      resolveDecompOut p sfx = Except.error GoErr.noSuffixMatch)
    ∧ (∀ p sfx : GoStr, pathFile p = '.' :: sfx →
      resolveDecompOut p sfx = Except.error GoErr.cantStrip) :=
  ⟨resolveDecompOut_ok, resolveDecompOut_no_suffix, resolveDecompOut_empty_base⟩

/-- C5 witness: stripping `.gz` from `dir/report.gz` yields `dir/report`; a
name without the suffix and a bare `.gz` name are rejected. -/
theorem C5_witness :
    resolveDecompOut ("dir/report".data ++ '.' :: "gz".data) "gz".data =
      Except.ok "dir/report".data
    ∧ resolveDecompOut "report".data "gz".data = Except.error GoErr.noSuffixMatch
    ∧ resolveDecompOut ".gz".data "gz".data = Except.error GoErr.cantStrip :=
  ⟨C5_suffix_strip_spec.1 "dir/report".data "gz".data (by decide) (by decide) (by decide)
      (by decide),
   C5_suffix_strip_spec.2.1 "report".data "gz".data (by decide),
   C5_suffix_strip_spec.2.2 ".gz".data "gz".data (by decide)⟩

/-- C7 (counterexample): compression level 10 lies outside the nominal range
1-9, yet validation accepts it and no usage error is raised.  With brotli
(whose writer accepts quality 10) the whole stdin invocation completes with
exit code 0; with the default gzip (whose writer rejects level 10) the job
fails mid-stream as an ordinary per-job error — logged, exit code 1 — not as
a usage error fatal to the invocation. -/
theorem C7_counterexample :
    validateMain cfg10 = none
    ∧ aioMain cfg10 wAllOk [] = MainOutcome.completed ⟨false, []⟩ 0
    ∧ validateMain cfg10gz = none
    ∧ aioMain cfg10gz wAllOk [] =
        MainOutcome.completed ⟨true, [(dash, GoErr.copyErr)]⟩ 1 := by
  refine ⟨rfl, rfl, rfl, rfl⟩

/-- C7 (amended): the code rejects only levels greater than 11; such a level
is a usage error detected in `main` before any dispatch or I/O and fatal to
the whole invocation (levels ≤ 11, including 0, 10, 11 and negatives, pass
this validation). -/
theorem C7_level_validation (cfg : Flags) (w : World) (files : List GoStr)
    (h : cfg.level > 11) :
    aioMain cfg w files = MainOutcome.fatal UsageErr.invalidLevel := by
  unfold aioMain
  rw [show validateMain cfg = some UsageErr.invalidLevel from by
    unfold validateMain; rw [if_pos h]]

/-- C7 witness: level 12 is fatal to the whole invocation. -/
theorem C7_witness :
    aioMain cfg12 wAllOk ["x".data] = MainOutcome.fatal UsageErr.invalidLevel :=
  C7_level_validation cfg12 wAllOk ["x".data] (by decide)

/-- C10: when `-l` is not set and several single-digit level flags are
supplied, the effective level after the correction loop is the smallest digit
set, regardless of the parse-time value (which holds the last flag parsed). -/
theorem C10_smallest_digit_wins (parsed : Int) (digits : List Nat)
    (h1 : digits ≠ []) (h2 : ∀ d ∈ digits, 1 ≤ d ∧ d ≤ 9) :
    ∃ m, m ∈ digits ∧ (∀ d ∈ digits, m ≤ d) ∧
      correctedLevel false parsed digits = (m : Int) := by
  have hc : correctedLevel false parsed digits =
      (match digitScan digits with
       | some i => (i : Int)
       | none => parsed) := rfl
  by_cases d1 : 1 ∈ digits
  · refine ⟨1, d1, fun d hd => (h2 d hd).1, ?_⟩
    rw [hc, show digitScan digits = some 1 from by unfold digitScan; rw [if_pos d1]]
  · by_cases d2 : 2 ∈ digits
    · refine ⟨2, d2, ?_, ?_⟩
      · intro d hd
        obtain ⟨hl, hr⟩ := h2 d hd
        by_contra hlt
        push_neg at hlt
        interval_cases d <;> simp_all
      · rw [hc, show digitScan digits = some 2 from by
          unfold digitScan; rw [if_neg d1, if_pos d2]]
    · by_cases d3 : 3 ∈ digits
      · refine ⟨3, d3, ?_, ?_⟩
        · intro d hd
          obtain ⟨hl, hr⟩ := h2 d hd
          by_contra hlt
          push_neg at hlt
          interval_cases d <;> simp_all
        · rw [hc, show digitScan digits = some 3 from by
            unfold digitScan; rw [if_neg d1, if_neg d2, if_pos d3]]
      · by_cases d4 : 4 ∈ digits
        · refine ⟨4, d4, ?_, ?_⟩
          · intro d hd
            obtain ⟨hl, hr⟩ := h2 d hd
            by_contra hlt
            push_neg at hlt
            interval_cases d <;> simp_all
          · rw [hc, show digitScan digits = some 4 from by
              unfold digitScan; rw [if_neg d1, if_neg d2, if_neg d3, if_pos d4]]
        · by_cases d5 : 5 ∈ digits
          · refine ⟨5, d5, ?_, ?_⟩
            · intro d hd
              obtain ⟨hl, hr⟩ := h2 d hd
              by_contra hlt
              push_neg at hlt
              interval_cases d <;> simp_all
            · rw [hc, show digitScan digits = some 5 from by
                unfold digitScan; rw [if_neg d1, if_neg d2, if_neg d3, if_neg d4, if_pos d5]]
          · by_cases d6 : 6 ∈ digits
            · refine ⟨6, d6, ?_, ?_⟩
              · intro d hd
                obtain ⟨hl, hr⟩ := h2 d hd
                by_contra hlt
                push_neg at hlt
                interval_cases d <;> simp_all
              · rw [hc, show digitScan digits = some 6 from by
                  unfold digitScan
                  rw [if_neg d1, if_neg d2, if_neg d3, if_neg d4, if_neg d5, if_pos d6]]
            · by_cases d7 : 7 ∈ digits
              · refine ⟨7, d7, ?_, ?_⟩
                · intro d hd
                  obtain ⟨hl, hr⟩ := h2 d hd
                  by_contra hlt
                  push_neg at hlt
                  interval_cases d <;> simp_all
                · rw [hc, show digitScan digits = some 7 from by
                    unfold digitScan
                    rw [if_neg d1, if_neg d2, if_neg d3, if_neg d4, if_neg d5, if_neg d6,
                      if_pos d7]]
              · by_cases d8 : 8 ∈ digits
                · refine ⟨8, d8, ?_, ?_⟩
                  · intro d hd
                    obtain ⟨hl, hr⟩ := h2 d hd
                    by_contra hlt
                    push_neg at hlt
                    interval_cases d <;> simp_all
                  · rw [hc, show digitScan digits = some 8 from by
                      unfold digitScan
                      rw [if_neg d1, if_neg d2, if_neg d3, if_neg d4, if_neg d5, if_neg d6,
                        if_neg d7, if_pos d8]]
                · by_cases d9 : 9 ∈ digits
                  · refine ⟨9, d9, ?_, ?_⟩
                    · intro d hd
                      obtain ⟨hl, hr⟩ := h2 d hd
                      by_contra hlt
                      push_neg at hlt
                      interval_cases d <;> simp_all
                    · rw [hc, show digitScan digits = some 9 from by
                        unfold digitScan
                        rw [if_neg d1, if_neg d2, if_neg d3, if_neg d4, if_neg d5, if_neg d6,
                          if_neg d7, if_neg d8, if_pos d9]]
                  · exfalso
                    obtain ⟨d, hd⟩ := List.exists_mem_of_ne_nil digits h1
                    obtain ⟨hl, hr⟩ := h2 d hd
                    interval_cases d <;> simp_all

/-- C10 witness: with `-2` and `-9` both set (in that order, so the parse-time
value is 9), the effective level is 2, the smallest digit set. -/
theorem C10_witness :
    correctedLevel false 9 [2, 9] = (2 : Int)
    ∧ ∃ m : Nat, m ∈ [2, 9] ∧ (∀ d ∈ [2, 9], m ≤ d) ∧
      correctedLevel false 9 [2, 9] = (m : Int) :=
  ⟨by decide, C10_smallest_digit_wins 9 [2, 9] (by decide) (by decide)⟩

theorem resolveJob_ok_of_detect (dec tst : Bool) (p : GoStr) (aSet : Bool) (aFlag : GoStr)
    (hdet : p ≠ dash → (getAlgorithmFromExtension p).isOk = true) :
    ∃ a, resolveJobAlgorithm dec tst p aSet aFlag = Except.ok a := by
  unfold resolveJobAlgorithm
  by_cases hcond : (dec || tst) = true ∧ p ≠ dash
  · rw [if_pos hcond]
    cases hg : getAlgorithmFromExtension p with
    | error m =>
      have hok := hdet hcond.2
      rw [hg] at hok
      simp [Except.isOk, Except.toBool] at hok
    | ok det => exact ⟨if aSet then aFlag else det, rfl⟩
  · rw [if_neg hcond]
    exact ⟨aFlag, rfl⟩

theorem processFile_conflict (cfg : Flags) (w : World) (p : GoStr)
    (h1 : cfg.stdout = true)
    (h2 : cfg.suffixSet = true ∨ cfg.force = true ∨ cfg.keep = true) :
    ∃ e, processFile cfg w p = (Except.error e, []) := by
  unfold processFile
  cases hra : resolveJobAlgorithm cfg.decompress cfg.test p cfg.algoSet cfg.algoFlag with
  | error e => exact ⟨e, rfl⟩
  | ok algo =>
    obtain ⟨e, hcc⟩ := conflictCheck_some cfg h1 h2
    rw [hcc]
    exact ⟨e, rfl⟩

/-- C3: the original input file is removed only when neither stdout output nor
keep is requested and the input is not stdin; the removal is the final
filesystem mutation and happens strictly after the output has been fully and
successfully written; and whenever the job fails, the input is left in
place. -/
theorem C3_input_removal_safety (cfg : Flags) (w : World) (p : GoStr) :
    (∀ e, (processFile cfg w p).1 = Except.error e →
      ∀ q, Eff.removeInput q ∉ (processFile cfg w p).2)
    ∧ (∀ q, Eff.removeInput q ∈ (processFile cfg w p).2 →
      q = p ∧ cfg.stdout = false ∧ cfg.keep = false ∧ p ≠ dash ∧
      ∃ pre o, (processFile cfg w p).2 = pre ++ [Eff.removeInput p] ∧
        Eff.writeOut o ∈ pre) := by
  unfold processFile
  split
  · exact ⟨fun _ _ q => List.not_mem_nil _, fun q hq => absurd hq (List.not_mem_nil _)⟩
  · split
    · exact ⟨fun _ _ q => List.not_mem_nil _, fun q hq => absurd hq (List.not_mem_nil _)⟩
    · split
      · exact ⟨fun _ _ q => List.not_mem_nil _, fun q hq => absurd hq (List.not_mem_nil _)⟩
      · split
        · rename_i hd
          split
          · exact ⟨fun _ _ q => List.not_mem_nil _,
              fun q hq => absurd hq (List.not_mem_nil _)⟩
          · split
            · exact ⟨fun _ _ q => List.not_mem_nil _,
                fun q hq => absurd hq (List.not_mem_nil _)⟩
            · exact pipelineRun_spec _ _ _ _ none [] (fun q => List.not_mem_nil _)
                (fun _ => Or.inr hd)
        · split
          · exact ⟨fun _ _ q => List.not_mem_nil _,
              fun q hq => absurd hq (List.not_mem_nil _)⟩
          · exact ⟨fun _ _ q => List.not_mem_nil _,
              fun q hq => absurd hq (List.not_mem_nil _)⟩
          · split
            · rename_i hso
              exact pipelineRun_spec _ _ _ _ none [] (fun q => List.not_mem_nil _)
                (fun _ => Or.inl hso)
            · split
              · exact ⟨fun _ _ q => List.not_mem_nil _,
                  fun q hq => absurd hq (List.not_mem_nil _)⟩
              · split
                · exact ⟨fun _ _ q => List.not_mem_nil _,
                    fun q hq => absurd hq (List.not_mem_nil _)⟩
                · rename_i out heq
                  split
                  · exact pipelineRun_spec _ _ _ _ (some out) []
                      (fun q => List.not_mem_nil _) (fun h => Option.noConfusion h)
                  · split
                    · exact ⟨fun _ _ q => List.not_mem_nil _,
                        fun q hq => absurd hq (List.not_mem_nil _)⟩
                    · split
                      · exact ⟨fun _ _ q => List.not_mem_nil _,
                          fun q hq => absurd hq (List.not_mem_nil _)⟩
                      · split
                        · exact ⟨fun _ _ q => List.not_mem_nil _,
                            fun q hq => absurd hq (List.not_mem_nil _)⟩
                        · exact pipelineRun_spec _ _ _ _ (some out)
                            [Eff.removeOutput out] (fun q => by simp)
                            (fun h => Option.noConfusion h)

/-- C3 witness: a plain successful compression of `doc` (no stdout, no keep)
removes the input as the last mutation, after `doc.gz` was fully written. -/
theorem C3_witness :
    "doc".data = "doc".data ∧ cfgBase.stdout = false ∧ cfgBase.keep = false ∧
    "doc".data ≠ dash ∧
    ∃ pre o, (processFile cfgBase wDoc "doc".data).2 = pre ++ [Eff.removeInput "doc".data] ∧
      Eff.writeOut o ∈ pre :=
  (C3_input_removal_safety cfgBase wDoc "doc".data).2 "doc".data (by decide)

/-- C6 (counterexample): with stdout and force both requested, an invocation
over two regular files is not fatal at job-construction time: both jobs are
attempted, each fails with its own per-job conflict error, and the process
completes with exit code 1. -/
theorem C6_counterexample :
    aioMain cfgC6 wAllOk ["a".data, "b".data] =
      MainOutcome.completed
        ⟨true, [("a".data, GoErr.conflictForce), ("b".data, GoErr.conflictForce)]⟩ 1 := by
  decide

/-- C6 (amended): requesting stdout together with an explicit suffix override,
with force, or with keep makes every job fail with a usage error before that
job performs any filesystem mutation; each regular-file argument still runs
and records the failure in the shared flag (so the batch exits 1), but the
conflict is per-job, not fatal to the whole invocation. -/
theorem C6_stdout_conflicts (cfg : Flags) (w : World) (p : GoStr)
    (h1 : cfg.stdout = true)
    (h2 : cfg.suffixSet = true ∨ cfg.force = true ∨ cfg.keep = true) :
    (∃ e, processFile cfg w p = (Except.error e, []))
    ∧ (∀ st f, f ≠ dash → w.statTop f = Except.ok false →
        (runOne cfg w st f).hasErrors = true) := by
  constructor
  · exact processFile_conflict cfg w p h1 h2
  · intro st f hf hstat
    obtain ⟨e, he⟩ := processFile_conflict cfg w f h1 h2
    unfold runOne
    rw [if_neg hf, hstat, he]

/-- C6 witness: stdout together with force fails the job for `a` with no
filesystem mutation, and any regular-file argument records a failure. -/
theorem C6_witness :
    (∃ e, processFile cfgC6 wAllOk "a".data = (Except.error e, []))
    ∧ (∀ st f, f ≠ dash → wAllOk.statTop f = Except.ok false →
        (runOne cfgC6 wAllOk st f).hasErrors = true) :=
  C6_stdout_conflicts cfgC6 wAllOk "a".data rfl (Or.inr (Or.inl rfl))

/-- C8: when decompressing or testing a named file, extension detection
applies the fixed table to the lowercased extension (`gz`→`gzip`, …); a file
whose final path element has no dot has no extension and fails; when detection
succeeds, the effective algorithm is the detected one without an explicit
override and the override with one; and when detection fails the job fails
even with an override. -/
theorem C8_extension_detection :
    (∀ stem e : GoStr, '/' ∉ e → '.' ∉ e →
      getAlgorithmFromExtension (stem ++ '.' :: e) =
        (match tableLookup (goToLower e) extAlgoTable with
         | some a => Except.ok a
         | none => Except.error ("unsupported extension: .".data ++ goToLower e)))
    ∧ (∀ p : GoStr, filepathExt p = [] →
      getAlgorithmFromExtension p = Except.error "file has no extension".data)
    ∧ (∀ dec tst : Bool, ∀ p aFlag a : GoStr, (dec || tst) = true → p ≠ dash →
      getAlgorithmFromExtension p = Except.ok a →
      resolveJobAlgorithm dec tst p false aFlag = Except.ok a
      ∧ resolveJobAlgorithm dec tst p true aFlag = Except.ok aFlag)
    ∧ (∀ dec tst : Bool, ∀ p aFlag : GoStr, ∀ aSet : Bool, ∀ m : GoStr,
      (dec || tst) = true → p ≠ dash →
      getAlgorithmFromExtension p = Except.error m →
      resolveJobAlgorithm dec tst p aSet aFlag = Except.error GoErr.detectFailed) := by
  refine ⟨getAlgorithmFromExtension_table, getAlgorithmFromExtension_none, ?_, ?_⟩
  · intro dec tst p aFlag a hdt hp hg
    constructor
    · unfold resolveJobAlgorithm
      rw [if_pos ⟨hdt, hp⟩, hg]
      rfl
    · unfold resolveJobAlgorithm
      rw [if_pos ⟨hdt, hp⟩, hg]
      rfl
  · intro dec tst p aFlag aSet m hdt hp hg
    unfold resolveJobAlgorithm
    rw [if_pos ⟨hdt, hp⟩, hg]

/-- C8 witness: the uppercase extension `GZ` detects as gzip via the table;
without an override the detected algorithm is effective, with an override the
flag value wins. -/
theorem C8_witness :
    getAlgorithmFromExtension ("doc".data ++ '.' :: "GZ".data) =
      (match tableLookup (goToLower "GZ".data) extAlgoTable with
       | some a => Except.ok a
       | none => Except.error ("unsupported extension: .".data ++ goToLower "GZ".data))
    ∧ resolveJobAlgorithm true false "doc.gz".data false "zstd".data = Except.ok "gzip".data
    ∧ resolveJobAlgorithm true false "doc.gz".data true "zstd".data = Except.ok "zstd".data :=
  ⟨C8_extension_detection.1 "doc".data "GZ".data (by decide) (by decide),
   (C8_extension_detection.2.2.1 true false "doc.gz".data "zstd".data "gzip".data rfl
      (by decide) rfl).1,
   (C8_extension_detection.2.2.1 true false "doc.gz".data "zstd".data "gzip".data rfl
      (by decide) rfl).2⟩

/-- C9: in test mode a job performs no filesystem mutation at all (no output
file is created, nothing is removed); and when the flags do not conflict, the
algorithm is detectable and the source is readable, the job reads the source
through the decompressing reader, discards the output, and succeeds exactly
when the stream decodes. -/
theorem C9_test_mode (cfg : Flags) (w : World) (p : GoStr) (ht : cfg.test = true) :
    (processFile cfg w p).2 = []
    ∧ (conflictCheck cfg = none →
       (p ≠ dash → (getAlgorithmFromExtension p).isOk = true) →
       (p ≠ dash → w.openOk p = true) →
       ((processFile cfg w p).1 = Except.ok () ↔ w.decodeOk p = true)) := by
  constructor
  · unfold processFile
    split
    · rfl
    · split
      · rfl
      · split
        · rfl
        · rename_i hts
          exact absurd ht hts
  · intro hcc hdet hopen
    obtain ⟨algo, hra⟩ := resolveJob_ok_of_detect cfg.decompress cfg.test p cfg.algoSet
      cfg.algoFlag hdet
    unfold processFile
    rw [hra, hcc]
    simp only [if_pos ht]
    show testRun cfg w p = Except.ok () ↔ w.decodeOk p = true
    unfold testRun
    by_cases hd : p = dash
    · have hcnd : ¬(p ≠ dash ∧ w.openOk p = false) := by
        rintro ⟨hne, _⟩
        exact hne hd
      rw [if_neg hcnd]
      cases hdec : w.decodeOk p with
      | false =>
        rw [if_pos rfl]
        simp
      | true =>
        rw [if_neg (by simp)]
        simp
    · have hcnd : ¬(p ≠ dash ∧ w.openOk p = false) := by
        rintro ⟨_, h2⟩
        rw [hopen hd] at h2
        exact Bool.noConfusion h2
      rw [if_neg hcnd]
      cases hdec : w.decodeOk p with
      | false =>
        rw [if_pos rfl]
        simp
      | true =>
        rw [if_neg (by simp)]
        simp

/-- C9 witness: testing `doc.gz` in a world where everything succeeds creates
and removes nothing and succeeds. -/
theorem C9_witness :
    (processFile cfgTest wAllOk "doc.gz".data).2 = []
    ∧ ((processFile cfgTest wAllOk "doc.gz".data).1 = Except.ok () ↔
        wAllOk.decodeOk "doc.gz".data = true) :=
  ⟨(C9_test_mode cfgTest wAllOk "doc.gz".data rfl).1,
   (C9_test_mode cfgTest wAllOk "doc.gz".data rfl).2 rfl (fun _ => rfl) (fun _ => rfl)⟩
